import Mathlib

/-!
Verification of the `oxidize-theme` core: a shallow embedding of the
template parser (`src/render/parser.rs`), the rendering engine and colour
derivation (`src/render/engine.rs`), the theme loader (`src/theme.rs`),
the publish transaction (`src/transaction.rs`, `src/util.rs`), the
wallpaper selector (`src/apply/wallpaper.rs`) and the `set` command
pipeline (`src/main.rs`), together with proofs of the specified
properties.  Strings are modelled as `List Char`; filesystem state is
modelled as a partial map from component paths to nodes.
-/

namespace Oxidize

/-! ## Template parser (`src/render/parser.rs`) -/

/-- Find the first occurrence of the two-character marker `c,c` in a list.
Returns `(before, after)` with the marker removed, mirroring the
`str::find` marker splitting used by `parse`. -/
def findPair (c : Char) : List Char → Option (List Char × List Char)
  | [] => none
  | [_] => none
  | a :: b :: t =>
    if a = c ∧ b = c then some ([], t)
    else (findPair c (b :: t)).map fun pq => (a :: pq.1, pq.2)

/-- Unicode-whitespace trim of both ends, mirroring `str::trim`. -/
def trimL (l : List Char) : List Char :=
  ((l.dropWhile Char.isWhitespace).reverse.dropWhile Char.isWhitespace).reverse

/-- A parsed template segment: `Segment::Lit` or `Segment::Var`. -/
inductive Segment
  /-- Literal text to emit verbatim. -/
  | lit (t : List Char)
  /-- Variable name (contents between the markers, trimmed). -/
  | var (k : List Char)
deriving DecidableEq, Repr

/-- Fuel-indexed worker for `parse`; the fuel only bounds the recursion
depth and `parse` always supplies enough. -/
def parseAux : Nat → List Char → List Segment
  | 0, _ => []
  | fuel + 1, s =>
    match findPair '{' s with
    | none => if s.isEmpty then [] else [Segment.lit s]
    | some (pre, post) =>
      let head := if pre.isEmpty then ([] : List Segment) else [Segment.lit pre]
      match findPair '}' post with
      | none => head ++ [Segment.lit ('{' :: '{' :: post)]
      | some (inner, rest) =>
        let key := trimL inner
        if key.isEmpty then
          head ++ Segment.lit ('{' :: '{' :: (inner ++ '}' :: '}' :: [])) :: parseAux fuel rest
        else
          head ++ Segment.var key :: parseAux fuel rest

/-- `parse` from `src/render/parser.rs`: single left-to-right scan splitting
the input into literal and variable segments. -/
def parse (s : List Char) : List Segment := parseAux s.length s

/-- Render a segment list back to text, literals verbatim and each variable
in its canonical spaced marker form. -/
def flatSegs : List Segment → List Char
  | [] => []
  | Segment.lit t :: ss => t ++ flatSegs ss
  | Segment.var k :: ss => '{' :: '{' :: ' ' :: (k ++ ' ' :: '}' :: '}' :: flatSegs ss)

/-! ## Rendering engine and colour derivation (`src/render/engine.rs`) -/

/-- A flat string-keyed variable mapping (the `HashMap<String, String>`),
modelled as an association list with unique keys. -/
abbrev Vars := List (List Char × List Char)

/-- Per-segment output of `expand`'s loop body: literals verbatim, known
variables replaced by their value, unknown ones re-emitted as markers. -/
def renderSeg (vars : Vars) : Segment → List Char
  | Segment.lit t => t
  | Segment.var k =>
    match vars.lookup k with
    | some v => v
    | none => '{' :: '{' :: ' ' :: (k ++ ' ' :: '}' :: '}' :: [])

/-- `expand` from `src/render/engine.rs`: parse the source and emit each
segment in order into the output buffer. -/
def expand (src : List Char) (vars : Vars) : List Char :=
  (parse src).foldl (fun out seg => out ++ renderSeg vars seg) []

/-- ASCII hex-digit test, mirroring `u8::is_ascii_hexdigit`. -/
def isHexDig (c : Char) : Bool :=
  c.isDigit || ('a' ≤ c && c ≤ 'f') || ('A' ≤ c && c ≤ 'F')

/-- Numeric value of one hex digit, as read by `u8::from_str_radix(_, 16)`. -/
def hexVal (c : Char) : Nat :=
  if c.isDigit then c.toNat - '0'.toNat
  else if 'a' ≤ c && c ≤ 'f' then c.toNat - 'a'.toNat + 10
  else c.toNat - 'A'.toNat + 10

/-- Decimal rendering of a number, as produced by `format!`. -/
def natToDec (n : Nat) : List Char := (Nat.repr n).data

/-- `hex_to_rgb`: convert a bare 6-character hex string to `"r,g,b"`;
`None` unless the input is exactly six ASCII hex digits. -/
def hexToRgb : List Char → Option (List Char)
  | [h1, h2, h3, h4, h5, h6] =>
    if [h1, h2, h3, h4, h5, h6].all isHexDig then
      some (natToDec (16 * hexVal h1 + hexVal h2) ++
        ',' :: natToDec (16 * hexVal h3 + hexVal h4) ++
        ',' :: natToDec (16 * hexVal h5 + hexVal h6))
    else none
  | _ => none

/-- `derive_color_keys`: produce the `<key>_strip` entry (value with all
leading `#` removed, via `trim_start_matches`) and, when the bare value
decodes, the `<key>_rgb` entry. -/
def deriveColorKeys (key hex : List Char) : List (List Char × List Char) :=
  let bare := hex.dropWhile (· == '#')
  let strip := (key ++ "_strip".data, bare)
  match hexToRgb bare with
  | some r => [strip, (key ++ "_rgb".data, r)]
  | none => [strip]

/-- The derived entries collected by `build_vars_from_colors` from an
already-flattened mapping: one `derive_color_keys` batch per value that
starts with `#`. -/
def derivedEntries (flat : Vars) : Vars :=
  (flat.filter fun kv => kv.2.head? == some '#').foldr
    (fun kv acc => deriveColorKeys kv.1 kv.2 ++ acc) []

/-- `build_vars_from_colors` after flattening: the flat mapping extended
with the derived colour keys. -/
def buildVarsFlat (flat : Vars) : Vars := flat ++ derivedEntries flat

/-- Output written by a rendered template file: output path is the
relative path with the trailing `.tpl` extension removed. -/
def stripTpl (p : List Char) : List Char := p.take (p.length - 4)

/-- The relative path of a walked template file always ends in `.tpl`. -/
def EndsTpl (p : List Char) : Prop := ∃ s, p = s ++ ".tpl".data

/-- `render_all` from `src/render/engine.rs`, over the enumerated template
trees: render every user template first, remember their relative paths,
then render exactly the bundled templates at unseen relative paths.  The
result lists the written `(output path, content)` pairs in write order. -/
def renderAllT (user bundled : List (List Char × List Char)) (vars : Vars) :
    List (List Char × List Char) :=
  let userOut := user.map fun pc => (stripTpl pc.1, expand pc.2 vars)
  let seen := user.map Prod.fst
  userOut ++
    (bundled.filter fun pc => !(seen.contains pc.1)).map
      fun pc => (stripTpl pc.1, expand pc.2 vars)

/-! ## Wallpaper selector (`src/apply/wallpaper.rs`) -/

/-- A wallpaper candidate: original path plus its resolved canonical path
(`None` when `fs::canonicalize` failed). -/
structure Candidate where
  path : List Char
  canonical : Option (List Char)
deriving DecidableEq, Repr

/-- Lexicographic order used by `Vec::sort` on the collected paths. -/
def lexLe : List Char → List Char → Bool
  | [], _ => true
  | _ :: _, [] => false
  | a :: as, b :: bs => if a = b then lexLe as bs else decide (a < b)

/-- Ordered insertion used by the stable sort below. -/
def insertLe (x : List Char) : List (List Char) → List (List Char)
  | [] => [x]
  | y :: t => if lexLe x y then x :: y :: t else y :: insertLe x t

/-- Stable lexicographic sort of the collected paths (`Vec::sort`). -/
def sortPaths : List (List Char) → List (List Char)
  | [] => []
  | x :: t => insertLe x (sortPaths t)

/-- `Vec::dedup`: remove consecutive duplicates. -/
def dedupAdj : List (List Char) → List (List Char)
  | [] => []
  | [a] => [a]
  | a :: b :: t => if a = b then dedupAdj (b :: t) else a :: dedupAdj (b :: t)

/-- `collect_candidates`: concatenate the two directory listings, sort,
dedup, and resolve each survivor via the canonicalization oracle. -/
def collectCandidates (userFiles themeFiles : List (List Char))
    (canon : List Char → Option (List Char)) : List Candidate :=
  (dedupAdj (sortPaths (userFiles ++ themeFiles))).map
    fun p => { path := p, canonical := canon p }

/-- The index selected by `pick_next`: successor of the first candidate
whose resolved path matches `current`, else `0`. -/
def pickIdx (cs : List Candidate) (current : Option (List Char)) : Nat :=
  match current.bind fun cur => cs.findIdx? fun c => c.canonical == some cur with
  | some i => (i + 1) % cs.length
  | none => 0

/-- `pick_next`: the original path of the candidate at the selected index
(the caller guarantees a non-empty candidate list). -/
def pickNext (cs : List Candidate) (current : Option (List Char)) : List Char :=
  (cs.getD (pickIdx cs current) { path := [], canonical := none }).path

/-! ## Filesystem model

Paths are component lists rooted at the configuration directory; the
filesystem is a partial map from paths to nodes.  Only the operations the
claims exercise are modelled, each mirroring its `std::fs` call. -/

/-- A filesystem path as a list of components. -/
abbrev FPath := List String

/-- A filesystem node: directory, regular file, or symbolic link. -/
inductive Node
  | dir
  | file (content : List Char)
  | symlink (target : FPath)
deriving DecidableEq, Repr

/-- Filesystem state: what node, if any, sits at each path. -/
def FS := FPath → Option Node

/-- `config_dir` from `src/ctx.rs` (relative to `XDG_CONFIG_HOME`). -/
def configPath : FPath := ["oxidize"]

/-- `themes` directory. -/
def themesPath : FPath := ["oxidize", "themes"]

/-- `data_dir`. -/
def dataPath : FPath := themesPath ++ ["data"]

/-- `generated_dir`. -/
def generatedPath : FPath := themesPath ++ ["generated"]

/-- `live_dir`. -/
def livePath : FPath := generatedPath ++ ["live"]

/-- `current_link`. -/
def currentLinkPath : FPath := themesPath ++ ["current"]

/-- `current_theme_file`. -/
def currentThemeFilePath : FPath := themesPath ++ ["current.theme"]

/-- The staging directory created by `Transaction::begin`, whose unique
name carries the `.stage.` prefix. -/
def stagePath (sn : String) : FPath := generatedPath ++ [sn]

/-- Place a node at a path. -/
def FS.set (fs : FS) (p : FPath) (n : Node) : FS :=
  fun q => if q = p then some n else fs q

/-- `fs::create_dir_all`: create a directory at every missing ancestor of
`p` and at `p` itself. -/
def mkdirAll (fs : FS) (p : FPath) : FS :=
  fun q => if q <+: p ∧ fs q = none then some Node.dir else fs q

/-- `fs::remove_dir_all`: delete the whole subtree rooted at `p`. -/
def removeSubtree (fs : FS) (p : FPath) : FS :=
  fun q => if p <+: q then none else fs q

/-- `util::remove_any`: remove a directory recursively, anything else as a
single entry, nothing when absent. -/
def removeAny (fs : FS) (p : FPath) : FS :=
  match fs p with
  | some Node.dir => removeSubtree fs p
  | some _ => fun q => if q = p then none else fs q
  | none => fs

/-- `fs::rename` of a directory onto an absent destination: the whole
subtree moves from `src` to `dst` in one atomic step. -/
def renameFS (fs : FS) (src dst : FPath) : FS :=
  fun q =>
    if src <+: q then none
    else if dst <+: q then fs (src ++ q.drop dst.length)
    else fs q

/-- `util::symlink_force`: ensure the parent directory exists, remove
whatever currently sits at the link path, then create the symlink. -/
def symlinkForce (fs : FS) (target lk : FPath) : FS :=
  let fs1 := mkdirAll fs lk.dropLast
  let fs2 := if (fs1 lk).isSome then removeAny fs1 lk else fs1
  fs2.set lk (Node.symlink target)

/-! ## Publish transaction (`src/transaction.rs`) -/

/-- `Transaction::begin`: ensure `generated/` exists, then create a fresh
uniquely-named staging directory inside it. -/
def beginFS (fs : FS) (sn : String) : FS :=
  (mkdirAll fs generatedPath).set (stagePath sn) Node.dir

/-- Dropping an `Open` transaction: the `TempDir` destructor removes the
staging directory and all its contents recursively. -/
def abandonFS (fs : FS) (sn : String) : FS :=
  removeSubtree fs (stagePath sn)

/-- Failure injection for the three fallible steps of `commit`. -/
structure CommitFail where
  removeOld : Bool
  renameLive : Bool
  updateLink : Bool
deriving DecidableEq, Repr

/-- `Transaction::commit`: `self.stage.keep()` surrenders ownership first,
so no failing step below deletes the staging directory; then remove any
old live tree, rename stage onto live, and force the `current` symlink.
Returns `(succeeded, state)`. -/
def commitFS (o : CommitFail) (fs : FS) (sn : String) : Bool × FS :=
  match (if (fs livePath).isSome then
          if o.removeOld then none else some (removeAny fs livePath)
         else some fs) with
  | none => (false, fs)
  | some fs1 =>
    if o.renameLive then (false, fs1)
    else
      let fs2 := renameFS fs1 (stagePath sn) livePath
      if o.updateLink then (false, fs2)
      else (true, symlinkForce fs2 livePath currentLinkPath)

/-! ## Theme loader (`src/theme.rs`) -/

/-- The spec's error taxonomy as exercised by `Theme::load`. -/
inductive LoadErr
  | notFound
  | missingVariables
  | buildFailed
deriving DecidableEq, Repr

/-- The fully-loaded theme descriptor (`struct Theme`). -/
structure ThemeD where
  name : String
  vars : Vars
  isLight : Bool
  iconTheme : Option (List Char)
  backgroundsDir : Option FPath
deriving DecidableEq, Repr

/-- `Path::is_dir` against the model. -/
def isDirAt (fs : FS) (p : FPath) : Bool := fs p == some Node.dir

/-- `Path::is_file` against the model. -/
def isFileAt (fs : FS) (p : FPath) : Bool :=
  match fs p with
  | some (Node.file _) => true
  | _ => false

/-- `read_trimmed`: file content trimmed, `None` when absent or blank. -/
def readTrimmed (fs : FS) (p : FPath) : Option (List Char) :=
  match fs p with
  | some (Node.file c) =>
    let t := trimL c
    if t.isEmpty then none else some t
  | _ => none

/-- `Theme::load`: check the theme directory, require `colors.toml`
directly inside it, then build the variables and assemble the descriptor.
The variable builder (TOML parsing) is abstracted as a parameter. -/
def loadTheme (fs : FS) (dataDir : FPath) (name : String)
    (buildVars : FS → FPath → Except LoadErr Vars) : Except LoadErr ThemeD :=
  let root := dataDir ++ [name]
  if isDirAt fs root = false then Except.error LoadErr.notFound
  else
    let colorsFile := root ++ ["colors.toml"]
    if isFileAt fs colorsFile = false then Except.error LoadErr.missingVariables
    else
      match buildVars fs colorsFile with
      | Except.error e => Except.error e
      | Except.ok vars =>
        let bgDir := root ++ ["backgrounds"]
        Except.ok
          { name := name
            vars := vars
            isLight := isFileAt fs (root ++ ["light.mode"])
            iconTheme := readTrimmed fs (root ++ ["icons.theme"])
            backgroundsDir := if isDirAt fs bgDir then some bgDir else none }

/-! ## The `set` command pipeline (`src/main.rs`) -/

/-- Failure injection for the fallible steps of `cmd_set`. -/
structure SetFail where
  failLoad : Bool
  failBegin : Bool
  failRender : Bool
  failAssets : Bool
  commitFail : CommitFail
deriving DecidableEq, Repr

/-- `cmd_set`: load the theme, begin a transaction, render and stage
assets into the staging directory, commit, and only then write
`current.theme`.  Any failing step propagates with `?`, dropping the
still-open transaction on the pre-commit failure paths.  The render and
asset-staging effects on the staging subtree are abstracted as state
transformers.  Returns `(succeeded, state)`. -/
def cmdSet (o : SetFail) (fs : FS) (sn : String) (name : String)
    (renderEff assetsEff : FS → FS) : Bool × FS :=
  if o.failLoad then (false, fs)
  else if o.failBegin then (false, fs)
  else
    let fs1 := beginFS fs sn
    if o.failRender then (false, abandonFS (renderEff fs1) sn)
    else
      let fs2 := renderEff fs1
      if o.failAssets then (false, abandonFS (assetsEff fs2) sn)
      else
        let fs3 := assetsEff fs2
        match commitFS o.commitFail fs3 sn with
        | (false, fs4) => (false, fs4)
        | (true, fs4) =>
          (true, fs4.set currentThemeFilePath (Node.file (name.data ++ ['\n'])))

example : parse "color=\x7b\x7b bg \x7d\x7d!".data =
    [Segment.lit "color=".data, Segment.var "bg".data, Segment.lit "!".data] := by decide

example : parse "no tokens here".data = [Segment.lit "no tokens here".data] := by decide

example : parse "oops \x7b\x7b unclosed".data =
    [Segment.lit "oops ".data, Segment.lit "\x7b\x7b unclosed".data] := by decide

example : parse "\x7b\x7b\x7d\x7d".data = [Segment.lit "\x7b\x7b\x7d\x7d".data] := by decide

example : parse "\x7b\x7b  key  \x7d\x7d".data = [Segment.var "key".data] := by decide

/-! ## Frame lemmas for the filesystem model -/

theorem not_prefix_of_length_lt {α : Type} {l1 l2 : List α} (h : l2.length < l1.length) :
    ¬ l1 <+: l2 :=
  fun hp => absurd hp.length_le (by omega)

theorem sn_ne_live {sn : String} (hsn : ".stage.".data <+: sn.data) : sn ≠ "live" := by
  intro h
  subst h
  exact absurd hsn (by decide)

theorem stage_vs_live {sn : String} (hne : sn ≠ "live") (r : FPath) :
    ¬ stagePath sn <+: livePath ++ r := by
  rintro ⟨t, ht⟩
  apply hne
  have h2 : [sn] ++ t = ["live"] ++ r := by
    have hh : generatedPath ++ ([sn] ++ t) = generatedPath ++ (["live"] ++ r) := by
      simpa [stagePath, livePath, List.append_assoc] using ht
    exact List.append_cancel_left hh
  simpa using congrArg (fun l => l.head?) h2

theorem live_vs_stage {sn : String} (hne : sn ≠ "live") (r : FPath) :
    ¬ livePath <+: stagePath sn ++ r := by
  rintro ⟨t, ht⟩
  apply hne
  have h2 : [sn] ++ r = ["live"] ++ t := by
    have hh : generatedPath ++ ([sn] ++ r) = generatedPath ++ (["live"] ++ t) := by
      simpa [stagePath, livePath, List.append_assoc] using ht.symm
    exact List.append_cancel_left hh
  simpa using congrArg (fun l => l.head?) h2

theorem stagePath_length (sn : String) : (stagePath sn).length = 4 := by
  simp [stagePath, generatedPath, themesPath]

theorem mkdirAll_frame (fs : FS) (p q : FPath) (h : ¬ q <+: p) : mkdirAll fs p q = fs q := by
  simp [mkdirAll, h]

theorem beginFS_frame (fs : FS) (sn : String) (q : FPath) (h1 : q ≠ stagePath sn)
    (h2 : ¬ q <+: generatedPath) : beginFS fs sn q = fs q := by
  simp [beginFS, FS.set, h1, mkdirAll_frame _ _ _ h2]

theorem abandonFS_frame (fs : FS) (sn : String) (q : FPath) (h : ¬ stagePath sn <+: q) :
    abandonFS fs sn q = fs q := by
  simp [abandonFS, removeSubtree, h]

theorem removeAny_frame (fs : FS) (p q : FPath) (h : ¬ p <+: q) : removeAny fs p q = fs q := by
  have hqp : q ≠ p := fun he => h (he ▸ List.prefix_refl q)
  cases hf : fs p with
  | none => simp [removeAny, hf]
  | some n =>
    cases n with
    | dir => simp [removeAny, hf, removeSubtree, h]
    | file c =>
      simp only [removeAny, hf]
      exact if_neg hqp
    | symlink t =>
      simp only [removeAny, hf]
      exact if_neg hqp

theorem renameFS_frame (fs : FS) (src dst q : FPath) (h1 : ¬ src <+: q) (h2 : ¬ dst <+: q) :
    renameFS fs src dst q = fs q := by
  simp [renameFS, h1, h2]

theorem symlinkForce_frame (fs : FS) (target lk q : FPath) (h1 : ¬ lk <+: q)
    (h2 : ¬ q <+: lk.dropLast) : symlinkForce fs target lk q = fs q := by
  have hqlk : q ≠ lk := fun he => h1 (he ▸ List.prefix_refl q)
  have hmk := mkdirAll_frame fs lk.dropLast q h2
  simp only [symlinkForce, FS.set]
  rw [if_neg hqlk]
  split
  · exact (removeAny_frame _ _ _ h1).trans hmk
  · exact hmk

theorem ctf_length : currentThemeFilePath.length = 3 := by
  simp [currentThemeFilePath, themesPath]

theorem stage_not_prefix_ctf (sn : String) : ¬ stagePath sn <+: currentThemeFilePath := by
  apply not_prefix_of_length_lt
  rw [stagePath_length, ctf_length]
  omega

/-- C1: a transaction handle created by `begin` that is dropped without
`commit` ever being called deletes the staging directory and all its
contents recursively, and leaves the live tree and the alias link exactly
as they were before `begin`. -/
theorem begin_drop_restores (fs : FS) (sn : String)
    (hsn : ".stage.".data <+: sn.data) :
    (∀ q, livePath <+: q → abandonFS (beginFS fs sn) sn q = fs q)
    ∧ abandonFS (beginFS fs sn) sn currentLinkPath = fs currentLinkPath
    ∧ (∀ q, stagePath sn <+: q → abandonFS (beginFS fs sn) sn q = none) := by
  have hne := sn_ne_live hsn
  refine ⟨?_, ?_, ?_⟩
  · rintro q ⟨r, rfl⟩
    have hst : ¬ stagePath sn <+: livePath ++ r := stage_vs_live hne r
    rw [abandonFS_frame _ _ _ hst]
    apply beginFS_frame
    · intro he
      exact hst (by rw [he])
    · apply not_prefix_of_length_lt
      have h4 : 4 ≤ (livePath ++ r).length := by
        simp [livePath, generatedPath, themesPath]
      have h3 : generatedPath.length = 3 := by simp [generatedPath, themesPath]
      omega
  · have hst : ¬ stagePath sn <+: currentLinkPath := by
      apply not_prefix_of_length_lt
      rw [stagePath_length]
      simp [currentLinkPath, themesPath]
    rw [abandonFS_frame _ _ _ hst]
    apply beginFS_frame
    · intro he
      have := congrArg List.length he
      rw [stagePath_length] at this
      simp [currentLinkPath, themesPath] at this
    · decide
  · intro q hq
    simp [abandonFS, removeSubtree, hq]

/-- Witness for C1 at a concrete filesystem and staging name. -/
theorem begin_drop_restores_witness :
    (".stage.".data <+: (".stage.x" : String).data)
    ∧ abandonFS (beginFS (fun _ => (none : Option Node)) ".stage.x") ".stage.x"
        currentLinkPath = (fun _ => (none : Option Node)) currentLinkPath :=
  ⟨by decide, (begin_drop_restores (fun _ => none) ".stage.x" (by decide)).2.1⟩

/-- C2: `commit` surrenders ownership of the staging directory before any
fallible step; whichever of the three fallible steps fails, `commit`
reports failure and the staged tree and its contents are never deleted —
still at the staging path when the rename has not happened, and at the
live path when only the alias update failed. -/
theorem commit_failure_preserves_staged (o : CommitFail) (fs : FS) (sn : String)
    (hsn : ".stage.".data <+: sn.data) :
    (o.removeOld = true → (fs livePath).isSome = true →
      (commitFS o fs sn).1 = false
      ∧ ∀ r, (commitFS o fs sn).2 (stagePath sn ++ r) = fs (stagePath sn ++ r))
    ∧ ((o.removeOld = false ∨ fs livePath = none) → o.renameLive = true →
      (commitFS o fs sn).1 = false
      ∧ ∀ r, (commitFS o fs sn).2 (stagePath sn ++ r) = fs (stagePath sn ++ r))
    ∧ ((o.removeOld = false ∨ fs livePath = none) → o.renameLive = false →
      o.updateLink = true →
      (commitFS o fs sn).1 = false
      ∧ ∀ r, (commitFS o fs sn).2 (livePath ++ r) = fs (stagePath sn ++ r)) := by
  have hne := sn_ne_live hsn
  have hfs1 : (o.removeOld = false ∨ fs livePath = none) →
      (if (fs livePath).isSome then
        if o.removeOld then none else some (removeAny fs livePath)
      else some fs) = some (if (fs livePath).isSome then removeAny fs livePath else fs) := by
    intro h1
    cases hlv : fs livePath with
    | none => simp
    | some n =>
      rcases h1 with h1 | h1
      · simp [h1]
      · rw [h1] at hlv
        cases hlv
  have hkeep : ∀ r, (if (fs livePath).isSome then removeAny fs livePath else fs)
      (stagePath sn ++ r) = fs (stagePath sn ++ r) := by
    intro r
    split
    · exact removeAny_frame _ _ _ (live_vs_stage hne r)
    · rfl
  refine ⟨?_, ?_, ?_⟩
  · intro h1 h2
    simp only [commitFS, h2, if_true, h1]
    exact ⟨trivial, fun _ => trivial⟩
  · intro h1 h2
    simp only [commitFS, hfs1 h1, h2, if_true]
    exact ⟨trivial, hkeep⟩
  · intro h1 h2 h3
    simp only [commitFS, hfs1 h1, h2, h3, if_true, Bool.false_eq_true, if_false]
    refine ⟨trivial, fun r => ?_⟩
    have hren : renameFS (if (fs livePath).isSome then removeAny fs livePath else fs)
        (stagePath sn) livePath (livePath ++ r)
        = (if (fs livePath).isSome then removeAny fs livePath else fs) (stagePath sn ++ r) := by
      rw [renameFS]
      rw [if_neg (stage_vs_live hne r), if_pos (List.prefix_append livePath r),
        List.drop_left]
    rw [hren, hkeep]

/-- Witness for C2: a failing rename leaves the staged tree intact. -/
theorem commit_failure_preserves_staged_witness :
    (".stage.".data <+: (".stage.x" : String).data)
    ∧ ((commitFS ⟨false, true, false⟩ (fun _ => (none : Option Node)) ".stage.x").1 = false
      ∧ ∀ r, (commitFS ⟨false, true, false⟩ (fun _ => (none : Option Node)) ".stage.x").2
          (stagePath ".stage.x" ++ r)
          = (fun _ => (none : Option Node)) (stagePath ".stage.x" ++ r)) :=
  ⟨by decide,
    (commit_failure_preserves_staged ⟨false, true, false⟩ (fun _ => none) ".stage.x"
      (by decide)).2.1 (Or.inl rfl) rfl⟩

theorem commitFS_preserves_ctf (o : CommitFail) (g : FS) (sn : String) :
    (commitFS o g sn).2 currentThemeFilePath = g currentThemeFilePath := by
  have hlv : ¬ livePath <+: currentThemeFilePath := by decide
  have hst := stage_not_prefix_ctf sn
  have hra : ∀ g' : FS, removeAny g' livePath currentThemeFilePath = g' currentThemeFilePath :=
    fun g' => removeAny_frame _ _ _ hlv
  have hre : ∀ g' : FS, renameFS g' (stagePath sn) livePath currentThemeFilePath
      = g' currentThemeFilePath := fun g' => renameFS_frame _ _ _ _ hst hlv
  have hsf : ∀ g' : FS, symlinkForce g' livePath currentLinkPath currentThemeFilePath
      = g' currentThemeFilePath :=
    fun g' => symlinkForce_frame _ _ _ _ (by decide) (by decide)
  rcases o with ⟨ro, rn, ul⟩
  cases hg : g livePath <;> cases ro <;> cases rn <;> cases ul <;>
    simp [commitFS, hg, hra, hre, hsf]

/-- C9: during `cmd_set`, `current.theme` is written only after `commit`
succeeded: whenever loading, begin, rendering, asset staging, or commit
fails, the command reports the error and `current.theme` is unchanged,
and on success the file holds the theme name. -/
theorem set_writes_theme_file_only_after_commit (o : SetFail) (fs : FS) (sn name : String)
    (rEff aEff : FS → FS)
    (hr : ∀ (g : FS) q, ¬ stagePath sn <+: q → rEff g q = g q)
    (ha : ∀ (g : FS) q, ¬ stagePath sn <+: q → aEff g q = g q) :
    ((cmdSet o fs sn name rEff aEff).1 = false →
      (cmdSet o fs sn name rEff aEff).2 currentThemeFilePath = fs currentThemeFilePath)
    ∧ ((cmdSet o fs sn name rEff aEff).1 = true →
      (cmdSet o fs sn name rEff aEff).2 currentThemeFilePath
        = some (Node.file (name.data ++ ['\n']))) := by
  have hst := stage_not_prefix_ctf sn
  have hb : beginFS fs sn currentThemeFilePath = fs currentThemeFilePath := by
    apply beginFS_frame
    · intro he
      have := congrArg List.length he
      rw [stagePath_length, ctf_length] at this
      omega
    · decide
  have hab : ∀ g : FS, abandonFS g sn currentThemeFilePath = g currentThemeFilePath :=
    fun g => abandonFS_frame _ _ _ hst
  have hrc : ∀ g : FS, rEff g currentThemeFilePath = g currentThemeFilePath :=
    fun g => hr g _ hst
  have hac : ∀ g : FS, aEff g currentThemeFilePath = g currentThemeFilePath :=
    fun g => ha g _ hst
  rcases o with ⟨fl, fb, fr, fa, cf⟩
  cases fl with
  | true => exact ⟨fun _ => rfl, by simp [cmdSet]⟩
  | false =>
  cases fb with
  | true => exact ⟨fun _ => rfl, by simp [cmdSet]⟩
  | false =>
  cases fr with
  | true =>
    refine ⟨fun _ => ?_, by simp [cmdSet]⟩
    show abandonFS (rEff (beginFS fs sn)) sn currentThemeFilePath = fs currentThemeFilePath
    rw [hab, hrc, hb]
  | false =>
  cases fa with
  | true =>
    refine ⟨fun _ => ?_, by simp [cmdSet]⟩
    show abandonFS (aEff (rEff (beginFS fs sn))) sn currentThemeFilePath
      = fs currentThemeFilePath
    rw [hab, hac, hrc, hb]
  | false =>
    have h3 : aEff (rEff (beginFS fs sn)) currentThemeFilePath = fs currentThemeFilePath := by
      rw [hac, hrc, hb]
    have hcm := commitFS_preserves_ctf cf (aEff (rEff (beginFS fs sn))) sn
    rcases hres : commitFS cf (aEff (rEff (beginFS fs sn))) sn with ⟨b, fs4⟩
    rw [hres] at hcm
    cases b with
    | false =>
      refine ⟨fun _ => ?_, ?_⟩
      · show (cmdSet ⟨false, false, false, false, cf⟩ fs sn name rEff aEff).2
          currentThemeFilePath = fs currentThemeFilePath
        simp only [cmdSet, Bool.false_eq_true, if_false, hres]
        exact hcm.trans h3
      · intro hbad
        simp only [cmdSet, Bool.false_eq_true, if_false, hres] at hbad
    | true =>
      refine ⟨?_, fun _ => ?_⟩
      · intro hbad
        simp only [cmdSet, Bool.false_eq_true, if_false, hres] at hbad
        exact absurd hbad (by decide)
      · simp only [cmdSet, Bool.false_eq_true, if_false, hres, FS.set]
        simp

/-- Witness for C9: a failing render step leaves `current.theme` untouched. -/
theorem set_writes_theme_file_only_after_commit_witness :
    ((cmdSet ⟨false, false, true, false, ⟨false, false, false⟩⟩ (fun _ => (none : Option Node))
        ".stage.x" "foo" id id).1 = false)
    ∧ (cmdSet ⟨false, false, true, false, ⟨false, false, false⟩⟩ (fun _ => (none : Option Node))
        ".stage.x" "foo" id id).2 currentThemeFilePath
      = (fun _ => (none : Option Node)) currentThemeFilePath :=
  ⟨rfl,
    (set_writes_theme_file_only_after_commit ⟨false, false, true, false, ⟨false, false, false⟩⟩
      (fun _ => none) ".stage.x" "foo" id id
      (fun _ _ _ => rfl) (fun _ _ _ => rfl)).1 rfl⟩

/-- C8: `Theme::load` fails with `NotFound` when the theme directory is
absent and with `MissingVariables` when the directory exists but holds no
`colors.toml` file; in both cases the result is a bare error for every
variable-builder oracle, so no descriptor is even partially constructed. -/
theorem load_fails_before_building (fs : FS) (dataDir : FPath) (name : String)
    (bv : FS → FPath → Except LoadErr Vars) :
    (isDirAt fs (dataDir ++ [name]) = false →
      loadTheme fs dataDir name bv = Except.error LoadErr.notFound)
    ∧ (isDirAt fs (dataDir ++ [name]) = true →
      isFileAt fs (dataDir ++ [name] ++ ["colors.toml"]) = false →
      loadTheme fs dataDir name bv = Except.error LoadErr.missingVariables) := by
  constructor
  · intro h
    simp [loadTheme, h]
  · intro h1 h2
    have h2' : isFileAt fs (dataDir ++ [name, "colors.toml"]) = false := by
      simpa using h2
    simp [loadTheme, h1, h2']

/-- Witness for C8: a data directory holding only an empty `foo` theme
directory: loading `bar` is `NotFound`, loading `foo` is
`MissingVariables`. -/
theorem load_fails_before_building_witness :
    loadTheme (fun q => if q = dataPath ++ ["foo"] then some Node.dir else none) dataPath "bar"
        (fun _ _ => Except.ok []) = Except.error LoadErr.notFound
    ∧ loadTheme (fun q => if q = dataPath ++ ["foo"] then some Node.dir else none) dataPath "foo"
        (fun _ _ => Except.ok []) = Except.error LoadErr.missingVariables :=
  ⟨(load_fails_before_building (fun q => if q = dataPath ++ ["foo"] then some Node.dir else none)
      dataPath "bar" (fun _ _ => Except.ok [])).1 (by decide),
   (load_fails_before_building (fun q => if q = dataPath ++ ["foo"] then some Node.dir else none)
      dataPath "foo" (fun _ _ => Except.ok [])).2 (by decide) (by decide)⟩

/-- C6: `pick_next` returns the candidate after the first one whose
resolved path matches the current resolved path, wrapping around modulo
the candidate count, and the candidate at index `0` when nothing matches
(including an unavailable current path). -/
theorem pick_next_rotation (cs : List Candidate) (current : Option (List Char))
    (hne : cs ≠ []) :
    (∀ cur i, current = some cur →
      cs.findIdx? (fun c => c.canonical == some cur) = some i →
      ∃ h : (i + 1) % cs.length < cs.length,
        pickNext cs current = (cs.get ⟨(i + 1) % cs.length, h⟩).path)
    ∧ ((current.bind fun cur => cs.findIdx? fun c => c.canonical == some cur) = none →
      ∃ h : 0 < cs.length, pickNext cs current = (cs.get ⟨0, h⟩).path) := by
  have hlen : 0 < cs.length := List.length_pos.mpr hne
  constructor
  · intro cur i hc hf
    have hm : (i + 1) % cs.length < cs.length := Nat.mod_lt _ hlen
    refine ⟨hm, ?_⟩
    unfold pickNext pickIdx
    rw [hc, Option.some_bind, hf, List.getD_eq_getElem _ _ hm, List.get_eq_getElem]
  · intro hnone
    refine ⟨hlen, ?_⟩
    unfold pickNext pickIdx
    rw [hnone, List.getD_eq_getElem _ _ hlen, List.get_eq_getElem]

/-- Witness for C6: candidates `a.png, b.png, c.png` (collected sorted and
deduplicated), current resolved to `b.png`, selects `c.png`. -/
theorem pick_next_rotation_witness :
    pickNext (collectCandidates ["/w/b.png".data, "/w/a.png".data] ["/w/c.png".data] some)
      (some "/w/b.png".data) = "/w/c.png".data := by
  obtain ⟨h, heq⟩ := (pick_next_rotation
      (collectCandidates ["/w/b.png".data, "/w/a.png".data] ["/w/c.png".data] some)
      (some "/w/b.png".data) (by decide)).1 "/w/b.png".data 1 rfl (by decide)
  rw [heq, List.get_eq_getElem,
    ← List.getD_eq_getElem _ ({ path := [], canonical := none } : Candidate) h]
  decide

/-- C7: for a value that is `#` followed by six hex digits,
`derive_color_keys` yields exactly the `<key>_strip` entry holding the six
digits and the `<key>_rgb` entry holding the decimal `r,g,b` rendering of
the three byte pairs. -/
theorem derive_hex_entries (key : List Char) (h1 h2 h3 h4 h5 h6 : Char)
    (hhex : [h1, h2, h3, h4, h5, h6].all isHexDig = true) :
    deriveColorKeys key ('#' :: [h1, h2, h3, h4, h5, h6]) =
      [(key ++ "_strip".data, [h1, h2, h3, h4, h5, h6]),
       (key ++ "_rgb".data,
        natToDec (16 * hexVal h1 + hexVal h2) ++
          ',' :: natToDec (16 * hexVal h3 + hexVal h4) ++
          ',' :: natToDec (16 * hexVal h5 + hexVal h6))] := by
  have hh1 : isHexDig h1 = true := by
    simp only [List.all_cons, Bool.and_eq_true] at hhex
    exact hhex.1
  have hne : (h1 == '#') = false := by
    apply beq_eq_false_iff_ne.mpr
    intro he
    rw [he] at hh1
    exact absurd hh1 (by decide)
  have hbare : ('#' :: [h1, h2, h3, h4, h5, h6]).dropWhile (· == '#')
      = [h1, h2, h3, h4, h5, h6] := by
    rw [List.dropWhile_cons_of_pos (by rfl), List.dropWhile_cons_of_neg (by rw [hne]; simp)]
  simp only [deriveColorKeys, hbare, hexToRgb, hhex, if_true]

/-- Witness for C7: `derive(key, "#a1b2c3")` yields `key_strip = "a1b2c3"`
and `key_rgb = "161,178,195"`. -/
theorem derive_hex_entries_witness :
    deriveColorKeys "key".data "#a1b2c3".data =
      [("key_strip".data, "a1b2c3".data), ("key_rgb".data, "161,178,195".data)] := by
  have h := derive_hex_entries "key".data 'a' '1' 'b' '2' 'c' '3' (by decide)
  exact h.trans (by decide)

theorem mem_foldr_append {α β : Type} (f : α → List β) (l : List α) (x : β) :
    x ∈ l.foldr (fun a acc => f a ++ acc) [] ↔ ∃ a ∈ l, x ∈ f a := by
  induction l with
  | nil => simp
  | cons a t ih => simp [List.foldr_cons, ih]

theorem nodup_key_val : ∀ (l : Vars), (l.map Prod.fst).Nodup →
    ∀ k v1 v2, (k, v1) ∈ l → (k, v2) ∈ l → v1 = v2 := by
  intro l
  induction l with
  | nil =>
    intro _ k v1 v2 h1 _
    cases h1
  | cons a t ih =>
    intro h k v1 v2 h1 h2
    simp only [List.map_cons, List.nodup_cons] at h
    rcases List.mem_cons.mp h1 with rfl | h1'
    · rcases List.mem_cons.mp h2 with he | h2'
      · exact (congrArg Prod.snd he).symm
      · exact absurd (List.mem_map_of_mem Prod.fst h2') h.1
    · rcases List.mem_cons.mp h2 with rfl | h2'
      · exact absurd (List.mem_map_of_mem Prod.fst h1') h.1
      · exact ih h.2 k v1 v2 h1' h2'

theorem exists_six (l : List Char) (h : l.length = 6) :
    ∃ a b c d e f, l = [a, b, c, d, e, f] := by
  match l with
  | [a, b, c, d, e, f] => exact ⟨a, b, c, d, e, f, rfl⟩
  | [] | [_] | [_, _] | [_, _, _] | [_, _, _, _] | [_, _, _, _, _] => simp at h
  | _ :: _ :: _ :: _ :: _ :: _ :: _ :: _ =>
    simp only [List.length_cons] at h
    omega

theorem hexToRgb_of_six (l : List Char) (hlen : l.length = 6) (hall : l.all isHexDig = true) :
    ∃ r, hexToRgb l = some r := by
  obtain ⟨a, b, c, d, e, f, rfl⟩ := exists_six l hlen
  exact ⟨natToDec (16 * hexVal a + hexVal b) ++
      ',' :: natToDec (16 * hexVal c + hexVal d) ++
      ',' :: natToDec (16 * hexVal e + hexVal f),
    by simp [hexToRgb, hall]⟩

theorem hexToRgb_eq_none (l : List Char)
    (h : ¬ (l.length = 6 ∧ l.all isHexDig = true)) : hexToRgb l = none := by
  match l with
  | [a, b, c, d, e, f] =>
    simp only [hexToRgb]
    rw [if_neg]
    intro hall
    exact h ⟨rfl, hall⟩
  | [] => rfl
  | [_] => rfl
  | [_, _] => rfl
  | [_, _, _] => rfl
  | [_, _, _, _] => rfl
  | [_, _, _, _, _] => rfl
  | _ :: _ :: _ :: _ :: _ :: _ :: _ :: _ => rfl

theorem rgb_key_ne_strip_key (k k' : List Char) : k ++ "_rgb".data ≠ k' ++ "_strip".data := by
  intro h
  have h4 := congrArg (fun l => l.reverse.head?) h
  simp only [List.reverse_append] at h4
  rw [show ("_rgb".data.reverse) = ['b', 'g', 'r', '_'] from rfl,
    show ("_strip".data.reverse) = ['p', 'i', 'r', 't', 's', '_'] from rfl] at h4
  simp at h4

/-- C10: the variable builder adds a `<key>_strip` entry — the value with
all leading `#` characters removed — for every flattened value beginning
with `#`, even when the remainder is not six hex digits, while the
`<key>_rgb` entry is derived exactly when the remainder is six ASCII hex
digits. -/
theorem build_vars_strip_always_rgb_conditional (flat : Vars) (k v : List Char)
    (hnodup : (flat.map Prod.fst).Nodup) (hmem : (k, v) ∈ flat)
    (hhash : v.head? = some '#') :
    ((k ++ "_strip".data, v.dropWhile (· == '#')) ∈ buildVarsFlat flat)
    ∧ ((v.dropWhile (· == '#')).length = 6 ∧ (v.dropWhile (· == '#')).all isHexDig = true →
      ∃ w, (k ++ "_rgb".data, w) ∈ derivedEntries flat)
    ∧ (¬ ((v.dropWhile (· == '#')).length = 6 ∧ (v.dropWhile (· == '#')).all isHexDig = true) →
      ∀ w, (k ++ "_rgb".data, w) ∉ derivedEntries flat) := by
  have hfil : (k, v) ∈ flat.filter fun kv => kv.2.head? == some '#' :=
    List.mem_filter.mpr ⟨hmem, by simp [hhash]⟩
  refine ⟨?_, ?_, ?_⟩
  · apply List.mem_append.mpr
    right
    apply (mem_foldr_append _ _ _).mpr
    refine ⟨(k, v), hfil, ?_⟩
    cases hrgb : hexToRgb (v.dropWhile (· == '#')) <;> simp [deriveColorKeys, hrgb]
  · rintro ⟨hlen, hall⟩
    obtain ⟨r, hr⟩ := hexToRgb_of_six _ hlen hall
    refine ⟨r, (mem_foldr_append _ _ _).mpr ⟨(k, v), hfil, ?_⟩⟩
    simp [deriveColorKeys, hr]
  · intro hno w hwmem
    obtain ⟨⟨k', v'⟩, hmem', hin⟩ := (mem_foldr_append _ _ _).mp hwmem
    cases hrgb : hexToRgb (v'.dropWhile (· == '#')) with
    | none =>
      simp only [deriveColorKeys, hrgb] at hin
      have he := List.mem_singleton.mp hin
      exact rgb_key_ne_strip_key k k' (congrArg Prod.fst he)
    | some r =>
      simp only [deriveColorKeys, hrgb] at hin
      rcases List.mem_cons.mp hin with he | hin'
      · exact rgb_key_ne_strip_key k k' (congrArg Prod.fst he)
      · have he := List.mem_singleton.mp hin'
        have hk : k' = k := List.append_cancel_right (congrArg Prod.fst he).symm
        subst hk
        have hv : v' = v :=
          nodup_key_val flat hnodup k' v' v (List.mem_filter.mp hmem').1 hmem
        subst hv
        rw [hexToRgb_eq_none _ hno] at hrgb
        cases hrgb

/-- Witness for C10: value `"#xyz"` yields a `_strip` entry `"xyz"` even
though the remainder is not six hex digits. -/
theorem build_vars_strip_always_witness :
    ("a_strip".data, "xyz".data) ∈ buildVarsFlat [("a".data, "#xyz".data)] := by
  have h := (build_vars_strip_always_rgb_conditional [("a".data, "#xyz".data)]
    "a".data "#xyz".data (by decide) (by decide) (by decide)).1
  exact (by decide : (("a".data ++ "_strip".data : List Char),
    "#xyz".data.dropWhile (· == '#')) = ("a_strip".data, "xyz".data)) ▸ h

/-- C5: `expand` emits literal segments verbatim, replaces each variable
segment whose name is bound in the mapping by its value, and re-emits the
`{{ name }}` marker for unbound names; in particular the two spec
scenarios hold. -/
theorem expand_per_segment :
    (∀ (src : List Char) (vars : Vars),
      expand src vars =
        ((parse src).map fun seg =>
          match seg with
          | Segment.lit t => t
          | Segment.var k =>
            match vars.lookup k with
            | some v => v
            | none => '{' :: '{' :: ' ' :: (k ++ ' ' :: '}' :: '}' :: [])).flatten)
    ∧ expand "color=\x7b\x7b bg \x7d\x7d!".data [("bg".data, "#1e1e2e".data)] = "color=#1e1e2e!".data
    ∧ expand "x=\x7b\x7b missing \x7d\x7d".data [("bg".data, "#1e1e2e".data)] = "x=\x7b\x7b missing \x7d\x7d".data := by
  refine ⟨?_, by decide, by decide⟩
  intro src vars
  have hfold : ∀ (l : List Segment) (init : List Char),
      l.foldl (fun out seg => out ++ renderSeg vars seg) init
        = init ++ (l.map (renderSeg vars)).flatten := by
    intro l
    induction l with
    | nil => intro init; simp
    | cons a t ih => intro init; simp [List.foldl_cons, ih]
  have hfun : (fun seg =>
      match seg with
      | Segment.lit t => t
      | Segment.var k =>
        match vars.lookup k with
        | some v => v
        | none => '{' :: '{' :: ' ' :: (k ++ ' ' :: '}' :: '}' :: [])) = renderSeg vars := by
    funext seg
    cases seg <;> rfl
  rw [expand, hfold, hfun]
  simp

theorem stripTpl_tpl (sp : List Char) : stripTpl (sp ++ ".tpl".data) = sp := by
  show (sp ++ ".tpl".data).take ((sp ++ ".tpl".data).length - 4) = sp
  rw [List.length_append, show (".tpl".data.length) = 4 from rfl, Nat.add_sub_cancel]
  exact List.take_left sp ".tpl".data

theorem stripTpl_inj {p q : List Char} (hp : EndsTpl p) (hq : EndsTpl q)
    (h : stripTpl p = stripTpl q) : p = q := by
  obtain ⟨sp, rfl⟩ := hp
  obtain ⟨sq, rfl⟩ := hq
  rw [stripTpl_tpl, stripTpl_tpl] at h
  rw [h]

/-- C3: `render_all` renders every user template and records its relative
path, renders a bundled template only when its relative path is not
user-provided, so no output path is written twice, and at a shared
relative path only the user template's expanded content appears. -/
theorem render_all_override (user bundled : List (List Char × List Char)) (vars : Vars)
    (hu : (user.map Prod.fst).Nodup) (hb : (bundled.map Prod.fst).Nodup)
    (htu : ∀ p ∈ user.map Prod.fst, EndsTpl p)
    (htb : ∀ p ∈ bundled.map Prod.fst, EndsTpl p) :
    ((renderAllT user bundled vars).map Prod.fst).Nodup
    ∧ ∀ p cu cb, (p, cu) ∈ user → (p, cb) ∈ bundled →
      ((stripTpl p, expand cu vars) ∈ renderAllT user bundled vars
       ∧ ∀ v, (stripTpl p, v) ∈ renderAllT user bundled vars → v = expand cu vars) := by
  constructor
  · have hkeys : (renderAllT user bundled vars).map Prod.fst
        = ((user.map Prod.fst)
          ++ ((bundled.filter fun pc => !((user.map Prod.fst).contains pc.1)).map
              Prod.fst)).map stripTpl := by
      simp [renderAllT, List.map_append, List.map_map, Function.comp_def]
    rw [hkeys]
    have hfil : ((bundled.filter fun pc => !((user.map Prod.fst).contains pc.1)).map
        Prod.fst).Nodup :=
      hb.sublist ((List.filter_sublist bundled).map Prod.fst)
    have hdisj : (user.map Prod.fst).Disjoint
        ((bundled.filter fun pc => !((user.map Prod.fst).contains pc.1)).map Prod.fst) := by
      intro x hxu hxf
      obtain ⟨pc, hpc, rfl⟩ := List.mem_map.mp hxf
      have hc := (List.mem_filter.mp hpc).2
      have hnm : pc.1 ∉ user.map Prod.fst := by simpa using hc
      exact hnm hxu
    have hbase := hu.append hfil hdisj
    apply hbase.map_on
    intro x hx y hy hf
    have hall : ∀ z ∈ (user.map Prod.fst)
        ++ ((bundled.filter fun pc => !((user.map Prod.fst).contains pc.1)).map Prod.fst),
        EndsTpl z := by
      intro z hz
      rcases List.mem_append.mp hz with hz | hz
      · exact htu z hz
      · obtain ⟨pc, hpc, rfl⟩ := List.mem_map.mp hz
        exact htb pc.1 (List.mem_map_of_mem Prod.fst (List.mem_filter.mp hpc).1)
    exact stripTpl_inj (hall x hx) (hall y hy) hf
  · intro p cu cb hmu hmb
    have hpu : p ∈ user.map Prod.fst := List.mem_map_of_mem Prod.fst hmu
    constructor
    · simp only [renderAllT]
      exact List.mem_append.mpr (Or.inl (List.mem_map.mpr ⟨(p, cu), hmu, rfl⟩))
    · intro v hv
      simp only [renderAllT] at hv
      rcases List.mem_append.mp hv with hv | hv
      · obtain ⟨⟨p', c'⟩, hpc', heq⟩ := List.mem_map.mp hv
        have hfst : stripTpl p' = stripTpl p := congrArg Prod.fst heq
        have hp' : p' = p :=
          stripTpl_inj (htu p' (List.mem_map_of_mem Prod.fst hpc')) (htu p hpu) hfst
        subst hp'
        have hc : c' = cu := nodup_key_val user hu p' c' cu hpc' hmu
        subst hc
        exact (congrArg Prod.snd heq).symm
      · exfalso
        obtain ⟨⟨p', c'⟩, hpc', heq⟩ := List.mem_map.mp hv
        have hmf := List.mem_filter.mp hpc'
        have hfst : stripTpl p' = stripTpl p := congrArg Prod.fst heq
        have hp' : p' = p :=
          stripTpl_inj (htb p' (List.mem_map_of_mem Prod.fst hmf.1)) (htu p hpu) hfst
        subst hp'
        have hnm : p' ∉ user.map Prod.fst := by simpa using hmf.2
        exact hnm hpu

/-- Witness for C3: user template `a.tpl` overrides the bundled `a.tpl`;
only the expanded user content lands at output path `a`. -/
theorem render_all_override_witness :
    (("a".data, "U1".data) ∈ renderAllT [("a.tpl".data, "U\x7b\x7b x \x7d\x7d".data)]
      [("a.tpl".data, "B".data), ("b.tpl".data, "C".data)] [("x".data, "1".data)])
    ∧ ∀ v, ("a".data, v) ∈ renderAllT [("a.tpl".data, "U\x7b\x7b x \x7d\x7d".data)]
      [("a.tpl".data, "B".data), ("b.tpl".data, "C".data)] [("x".data, "1".data)] →
      v = "U1".data := by
  have h := (render_all_override [("a.tpl".data, "U\x7b\x7b x \x7d\x7d".data)]
    [("a.tpl".data, "B".data), ("b.tpl".data, "C".data)] [("x".data, "1".data)]
    (by decide) (by decide)
    (by
      intro p hp
      simp only [List.map_cons, List.map_nil, List.mem_singleton] at hp
      subst hp
      exact ⟨"a".data, by decide⟩)
    (by
      intro p hp
      simp only [List.map_cons, List.map_nil, List.mem_cons, List.mem_singleton] at hp
      rcases hp with hp | hp
      · subst hp
        exact ⟨"a".data, by decide⟩
      · rcases hp with hp | hp
        · subst hp
          exact ⟨"b".data, by decide⟩
        · cases hp)).2
    "a.tpl".data "U\x7b\x7b x \x7d\x7d".data "B".data (by decide) (by decide)
  constructor
  · exact (by decide : ((stripTpl "a.tpl".data : List Char), expand "U\x7b\x7b x \x7d\x7d".data
      [("x".data, "1".data)]) = ("a".data, "U1".data)) ▸ h.1
  · intro v hv
    have hv' : (stripTpl "a.tpl".data, v) ∈ renderAllT [("a.tpl".data, "U\x7b\x7b x \x7d\x7d".data)]
        [("a.tpl".data, "B".data), ("b.tpl".data, "C".data)] [("x".data, "1".data)] := by
      have he : (stripTpl "a.tpl".data : List Char) = "a".data := by decide
      rw [he]
      exact hv
    exact (h.2 v hv').trans (by decide)

/-! ## Structural lemmas about `findPair` -/

theorem findPair_nil {c : Char} : findPair c [] = none := rfl

theorem findPair_one {c a : Char} : findPair c [a] = none := rfl

theorem findPair_none_cons_cons {c a b : Char} {u : List Char}
    (h : findPair c (a :: b :: u) = none) :
    ¬(a = c ∧ b = c) ∧ findPair c (b :: u) = none := by
  by_cases hab : a = c ∧ b = c
  · simp [findPair, hab] at h
  · refine ⟨hab, ?_⟩
    simp only [findPair, if_neg hab] at h
    cases hfp : findPair c (b :: u) with
    | none => rfl
    | some pq =>
      rw [hfp] at h
      simp at h

theorem findPair_none_mk {c a b : Char} {u : List Char} (h1 : ¬(a = c ∧ b = c))
    (h2 : findPair c (b :: u) = none) : findPair c (a :: b :: u) = none := by
  simp [findPair, if_neg h1, h2]

theorem findPair_sound {c : Char} : ∀ {s p q : List Char},
    findPair c s = some (p, q) → s = p ++ c :: c :: q := by
  intro s
  induction s with
  | nil =>
    intro p q h
    simp [findPair] at h
  | cons a t ih =>
    intro p q h
    cases t with
    | nil => simp [findPair] at h
    | cons b u =>
      simp only [findPair] at h
      split at h
      · rename_i hab
        injection h with h'
        rw [Prod.mk.injEq] at h'
        obtain ⟨h1, h2⟩ := h'
        subst h1
        subst h2
        simp [hab.1, hab.2]
      · cases hfp : findPair c (b :: u) with
        | none =>
          rw [hfp] at h
          simp at h
        | some pq =>
          obtain ⟨p', q'⟩ := pq
          rw [hfp] at h
          simp only [Option.map_some'] at h
          injection h with h'
          rw [Prod.mk.injEq] at h'
          obtain ⟨h1, h2⟩ := h'
          subst h1
          subst h2
          have := ih hfp
          rw [this]
          simp

theorem findPair_nil_head {c b : Char} {u q : List Char}
    (h : findPair c (b :: u) = some ([], q)) : b = c := by
  cases u with
  | nil => simp [findPair] at h
  | cons e w =>
    simp only [findPair] at h
    split at h
    · rename_i hbe
      exact hbe.1
    · cases hfp : findPair c (e :: w) with
      | none =>
        rw [hfp] at h
        simp at h
      | some pq =>
        rw [hfp] at h
        simp only [Option.map_some'] at h
        injection h with h'
        rw [Prod.mk.injEq] at h'
        exact absurd h'.1 (by simp)

theorem findPair_cons_head {c b d : Char} {u p'' q : List Char}
    (h : findPair c (b :: u) = some (d :: p'', q)) : d = b := by
  cases u with
  | nil => simp [findPair] at h
  | cons e w =>
    simp only [findPair] at h
    split at h
    · injection h with h'
      rw [Prod.mk.injEq] at h'
      exact absurd h'.1 (by simp)
    · cases hfp : findPair c (e :: w) with
      | none =>
        rw [hfp] at h
        simp at h
      | some pq =>
        rw [hfp] at h
        simp only [Option.map_some'] at h
        injection h with h'
        rw [Prod.mk.injEq] at h'
        exact (List.cons.injEq .. ▸ h'.1).1.symm

theorem findPair_found_props {c : Char} : ∀ {s p q : List Char},
    findPair c s = some (p, q) → findPair c p = none ∧ p.getLast? ≠ some c := by
  intro s
  induction s with
  | nil =>
    intro p q h
    simp [findPair] at h
  | cons a t ih =>
    intro p q h
    cases t with
    | nil => simp [findPair] at h
    | cons b u =>
      simp only [findPair] at h
      split at h
      · injection h with h'
        rw [Prod.mk.injEq] at h'
        obtain ⟨h1, _⟩ := h'
        subst h1
        exact ⟨rfl, by simp⟩
      · rename_i hab
        cases hfp : findPair c (b :: u) with
        | none =>
          rw [hfp] at h
          simp at h
        | some pq =>
          obtain ⟨p', q'⟩ := pq
          rw [hfp] at h
          simp only [Option.map_some'] at h
          injection h with h'
          rw [Prod.mk.injEq] at h'
          obtain ⟨h1, h2⟩ := h'
          subst h1
          obtain ⟨ihn, ihl⟩ := ih hfp
          constructor
          · rcases p' with _ | ⟨d, p''⟩
            · exact findPair_one
            · have hd : d = b := findPair_cons_head hfp
              subst hd
              exact findPair_none_mk hab ihn
          · rcases p' with _ | ⟨d, p''⟩
            · have hb : b = c := findPair_nil_head hfp
              have ha : a ≠ c := fun he => hab ⟨he, hb⟩
              simpa using ha
            · rw [List.getLast?_cons_cons]
              exact ihl

theorem findPair_mk {c : Char} : ∀ {l : List Char}, findPair c l = none →
    l.getLast? ≠ some c → ∀ X, findPair c (l ++ c :: c :: X) = some (l, X) := by
  intro l
  induction l with
  | nil =>
    intro _ _ X
    simp [findPair]
  | cons a t ih =>
    intro hn hl X
    cases t with
    | nil =>
      have ha : a ≠ c := fun he => hl (by simp [he])
      show findPair c ([a] ++ c :: c :: X) = some ([a], X)
      simp only [List.cons_append, List.nil_append, findPair]
      rw [if_neg (by rintro ⟨h1, _⟩; exact ha h1)]
      simp [findPair]
    | cons b u =>
      obtain ⟨hab, hn'⟩ := findPair_none_cons_cons hn
      rw [List.getLast?_cons_cons] at hl
      have hrec := ih hn' hl X
      simp only [List.cons_append] at hrec ⊢
      simp only [findPair, if_neg hab, hrec, Option.map_some']

theorem findPair_replay {c : Char} {s p q : List Char} (h : findPair c s = some (p, q)) :
    ∀ X, findPair c (p ++ c :: c :: X) = some (p, X) :=
  findPair_mk (findPair_found_props h).1 (findPair_found_props h).2

theorem noPair_of_append_left {c : Char} : ∀ {x t : List Char},
    findPair c (x ++ t) = none → findPair c x = none := by
  intro x
  induction x with
  | nil =>
    intro t _
    rfl
  | cons a y ih =>
    intro t h
    cases y with
    | nil => exact findPair_one
    | cons b z =>
      simp only [List.cons_append] at h
      obtain ⟨hab, h'⟩ := findPair_none_cons_cons h
      exact findPair_none_mk hab (ih (by simpa using h'))

theorem noPair_of_append_right {c : Char} : ∀ {t x : List Char},
    findPair c (t ++ x) = none → findPair c x = none := by
  intro t
  induction t with
  | nil =>
    intro x h
    exact h
  | cons a u ih =>
    intro x h
    apply ih
    simp only [List.cons_append] at h
    cases hux : u ++ x with
    | nil => exact findPair_nil
    | cons b w =>
      rw [hux] at h
      exact (findPair_none_cons_cons h).2

theorem noPair_within {c : Char} {l' l : List Char} (hinf : List.IsInfix l' l)
    (h : findPair c l = none) : findPair c l' = none := by
  obtain ⟨s, t, rfl⟩ := hinf
  exact noPair_of_append_right (noPair_of_append_left h)

theorem noPair_cons {c a : Char} {l : List Char} (ha : a ≠ c)
    (h : findPair c l = none) : findPair c (a :: l) = none := by
  cases l with
  | nil => exact findPair_one
  | cons b t => exact findPair_none_mk (fun hand => ha hand.1) h

theorem noPair_snoc {c x : Char} {l : List Char} (hx : x ≠ c)
    (h : findPair c l = none) : findPair c (l ++ [x]) = none := by
  induction l with
  | nil => exact findPair_one
  | cons a t ih =>
    cases t with
    | nil =>
      exact findPair_none_mk (fun hand => hx hand.2) findPair_one
    | cons b u =>
      obtain ⟨hab, h'⟩ := findPair_none_cons_cons h
      have hr := ih h'
      simp only [List.cons_append] at hr ⊢
      exact findPair_none_mk hab (by simpa using hr)

/-! ## Structural lemmas about `trimL` -/

theorem dropWhile_head_not (p : Char → Bool) : ∀ {l : List Char} {a : Char},
    (l.dropWhile p).head? = some a → p a = false := by
  intro l
  induction l with
  | nil =>
    intro a h
    simp at h
  | cons b u ih =>
    intro a h
    by_cases hb : p b
    · rw [List.dropWhile_cons_of_pos hb] at h
      exact ih h
    · rw [List.dropWhile_cons_of_neg hb] at h
      simp only [List.head?_cons, Option.some.injEq] at h
      subst h
      exact Bool.eq_false_iff.mpr hb

theorem trimL_within (l : List Char) : List.IsInfix (trimL l) l := by
  have hm : List.IsSuffix (l.dropWhile Char.isWhitespace) l := List.dropWhile_suffix _
  obtain ⟨t, ht⟩ : List.IsSuffix
      ((l.dropWhile Char.isWhitespace).reverse.dropWhile Char.isWhitespace)
      (l.dropWhile Char.isWhitespace).reverse := List.dropWhile_suffix _
  have hpre : List.IsPrefix (trimL l) (l.dropWhile Char.isWhitespace) := by
    refine ⟨t.reverse, ?_⟩
    have h2 := congrArg List.reverse ht
    simpa [trimL, List.reverse_append] using h2
  exact hpre.isInfix.trans hm.isInfix

theorem trimL_getLast_not_ws {l : List Char} {a : Char}
    (h : (trimL l).getLast? = some a) : a.isWhitespace = false := by
  unfold trimL at h
  rw [List.getLast?_reverse] at h
  exact dropWhile_head_not _ h

theorem trimL_head_not_ws {l : List Char} {a : Char}
    (h : (trimL l).head? = some a) : a.isWhitespace = false := by
  have main : ∀ (m : List Char) (b : Char),
      (m.reverse.dropWhile Char.isWhitespace).getLast? = some b → m.head? = some b := by
    intro m b hgl
    have hx : m.reverse.dropWhile Char.isWhitespace ≠ [] := by
      intro he
      rw [he] at hgl
      simp at hgl
    obtain ⟨t, ht⟩ : List.IsSuffix (m.reverse.dropWhile Char.isWhitespace) m.reverse :=
      List.dropWhile_suffix _
    have hga := List.getLast?_append_of_ne_nil t hx
    rw [ht] at hga
    rw [← hga, List.getLast?_reverse] at hgl
    exact hgl
  unfold trimL at h
  rw [List.head?_reverse] at h
  exact dropWhile_head_not _ (main (l.dropWhile Char.isWhitespace) a h)

theorem trimL_pad {key : List Char} (hne : key ≠ [])
    (hh : ∀ a, key.head? = some a → a.isWhitespace = false)
    (hl : ∀ a, key.getLast? = some a → a.isWhitespace = false) :
    trimL (' ' :: (key ++ [' '])) = key := by
  obtain ⟨k0, k', rfl⟩ : ∃ k0 k', key = k0 :: k' := by
    cases key with
    | nil => exact absurd rfl hne
    | cons k0 k' => exact ⟨k0, k', rfl⟩
  have hk0 : k0.isWhitespace = false := hh k0 rfl
  unfold trimL
  rw [List.dropWhile_cons_of_pos (by decide)]
  rw [show (k0 :: k') ++ [' '] = k0 :: (k' ++ [' ']) from rfl]
  rw [List.dropWhile_cons_of_neg (by simp [hk0])]
  rw [show k0 :: (k' ++ [' ']) = (k0 :: k') ++ [' '] from rfl, List.reverse_append]
  rw [show ([' '] : List Char).reverse ++ (k0 :: k').reverse
      = ' ' :: (k0 :: k').reverse from rfl]
  rw [List.dropWhile_cons_of_pos (by decide)]
  cases hrev : (k0 :: k').reverse with
  | nil => exact absurd hrev (by simp)
  | cons g r =>
    have hg : g.isWhitespace = false := by
      apply hl g
      rw [← List.head?_reverse, hrev, List.head?_cons]
    rw [List.dropWhile_cons_of_neg (by simp [hg]), ← hrev, List.reverse_reverse]

/-! ## Unfolding lemmas for `parse` -/

theorem flatSegs_append (l1 l2 : List Segment) :
    flatSegs (l1 ++ l2) = flatSegs l1 ++ flatSegs l2 := by
  induction l1 with
  | nil => simp [flatSegs]
  | cons a t ih => cases a <;> simp [flatSegs, ih]

theorem parseAux_fuel : ∀ (n : Nat) (s : List Char) (f1 f2 : Nat),
    s.length ≤ n → s.length ≤ f1 → s.length ≤ f2 → parseAux f1 s = parseAux f2 s := by
  intro n
  induction n with
  | zero =>
    intro s f1 f2 hn _ _
    have hs : s = [] := List.length_eq_zero.mp (Nat.le_zero.mp hn)
    subst hs
    cases f1 <;> cases f2 <;> simp [parseAux, findPair]
  | succ n ih =>
    intro s f1 f2 hn h1 h2
    cases s with
    | nil => cases f1 <;> cases f2 <;> simp [parseAux, findPair]
    | cons a t =>
      cases f1 with
      | zero => simp at h1
      | succ f1' =>
        cases f2 with
        | zero => simp at h2
        | succ f2' =>
          cases hf : findPair '{' (a :: t) with
          | none => simp [parseAux, hf]
          | some pq =>
            obtain ⟨pre, post⟩ := pq
            cases hg : findPair '}' post with
            | none => simp [parseAux, hf, hg]
            | some ir =>
              obtain ⟨inner, rest⟩ := ir
              have hs1 := findPair_sound hf
              have hs2 := findPair_sound hg
              have hlen : rest.length + 4 ≤ (a :: t).length := by
                rw [hs1, hs2]
                simp [List.length_append, List.length_cons]
                omega
              simp only [List.length_cons] at hlen hn h1 h2
              have hrec := ih rest f1' f2' (by omega) (by omega) (by omega)
              simp only [parseAux, hf, hg]
              rw [hrec]

theorem parse_of_none {s : List Char} (h : findPair '{' s = none) :
    parse s = if s.isEmpty then [] else [Segment.lit s] := by
  cases s with
  | nil => rfl
  | cons a t => simp [parse, parseAux, h]

theorem parse_unclosed {s pre post : List Char} (h1 : findPair '{' s = some (pre, post))
    (h2 : findPair '}' post = none) :
    parse s = (if pre.isEmpty then [] else [Segment.lit pre])
      ++ [Segment.lit ('{' :: '{' :: post)] := by
  cases s with
  | nil => simp [findPair] at h1
  | cons a t => simp [parse, parseAux, h1, h2]

theorem parse_rest_len {a : Char} {t pre post inner rest : List Char}
    (h1 : findPair '{' (a :: t) = some (pre, post))
    (h2 : findPair '}' post = some (inner, rest)) : rest.length ≤ t.length := by
  have hs1 := findPair_sound h1
  have hs2 := findPair_sound h2
  have hl := congrArg List.length hs1
  rw [hs2] at hl
  simp [List.length_append, List.length_cons] at hl
  omega

theorem parse_marker {s pre post inner rest : List Char}
    (h1 : findPair '{' s = some (pre, post)) (h2 : findPair '}' post = some (inner, rest))
    (hk : trimL inner = []) :
    parse s = (if pre.isEmpty then [] else [Segment.lit pre])
      ++ Segment.lit ('{' :: '{' :: (inner ++ '}' :: '}' :: [])) :: parse rest := by
  cases s with
  | nil => simp [findPair] at h1
  | cons a t =>
    have hlen := parse_rest_len h1 h2
    show parseAux (a :: t).length (a :: t) = _
    simp only [List.length_cons, parseAux, h1, h2, hk, List.isEmpty_nil, if_true]
    rw [parseAux_fuel t.length rest t.length rest.length hlen hlen (Nat.le_refl _)]
    rfl

theorem parse_var {s pre post inner rest : List Char}
    (h1 : findPair '{' s = some (pre, post)) (h2 : findPair '}' post = some (inner, rest))
    (hk : trimL inner ≠ []) :
    parse s = (if pre.isEmpty then [] else [Segment.lit pre])
      ++ Segment.var (trimL inner) :: parse rest := by
  cases s with
  | nil => simp [findPair] at h1
  | cons a t =>
    have hlen := parse_rest_len h1 h2
    have hke : (trimL inner).isEmpty = false := by
      cases hti : trimL inner with
      | nil => exact absurd hti hk
      | cons x y => rfl
    show parseAux (a :: t).length (a :: t) = _
    simp only [List.length_cons, parseAux, h1, h2, hke, Bool.false_eq_true, if_false]
    rw [parseAux_fuel t.length rest t.length rest.length hlen hlen (Nat.le_refl _)]
    rfl

theorem parse_flat_aux : ∀ (n : Nat) (s : List Char), s.length ≤ n →
    parse (flatSegs (parse s)) = parse s := by
  intro n
  induction n with
  | zero =>
    intro s hn
    have hs : s = [] := List.length_eq_zero.mp (Nat.le_zero.mp hn)
    subst hs
    rfl
  | succ n ih =>
    intro s hn
    cases hf : findPair '{' s with
    | none =>
      have hps := parse_of_none hf
      cases s with
      | nil => rfl
      | cons a t =>
        rw [hps]
        simp only [List.isEmpty_cons, Bool.false_eq_true, if_false]
        simp only [flatSegs, List.append_nil]
        rw [hps]
        simp only [List.isEmpty_cons, Bool.false_eq_true, if_false]
    | some pq =>
      obtain ⟨pre, post⟩ := pq
      cases hg : findPair '}' post with
      | none =>
        have hps := parse_unclosed hf hg
        rw [hps]
        have hflat : flatSegs ((if pre.isEmpty then [] else [Segment.lit pre])
            ++ [Segment.lit ('{' :: '{' :: post)]) = s := by
          rw [flatSegs_append]
          have hs1 := findPair_sound hf
          cases pre with
          | nil =>
            simp only [List.isEmpty_nil, if_true, flatSegs, List.append_nil,
              List.nil_append]
            simpa using hs1.symm
          | cons p0 p' =>
            simp only [List.isEmpty_cons, Bool.false_eq_true, if_false, flatSegs,
              List.append_nil]
            exact hs1.symm
        rw [hflat, hps]
      | some ir =>
        obtain ⟨inner, rest⟩ := ir
        have hrest : rest.length ≤ n := by
          have hs1 := findPair_sound hf
          have hs2 := findPair_sound hg
          have hl := congrArg List.length hs1
          rw [hs2] at hl
          simp [List.length_append, List.length_cons] at hl
          omega
        have hT := ih rest hrest
        by_cases hk : trimL inner = []
        · have hps := parse_marker hf hg hk
          rw [hps]
          rw [show Segment.lit ('{' :: '{' :: (inner ++ '}' :: '}' :: [])) :: parse rest
            = [Segment.lit ('{' :: '{' :: (inner ++ '}' :: '}' :: []))] ++ parse rest
            from rfl]
          rw [flatSegs_append, flatSegs_append]
          simp only [flatSegs, List.append_nil]
          have hshape : flatSegs (if pre.isEmpty then [] else [Segment.lit pre])
              ++ ('{' :: '{' :: (inner ++ '}' :: '}' :: []) ++ flatSegs (parse rest))
              = pre ++ '{' :: '{' :: (inner ++ '}' :: '}' :: flatSegs (parse rest)) := by
            cases pre <;> simp [flatSegs]
          rw [hshape]
          have hf' := findPair_replay hf (inner ++ '}' :: '}' :: flatSegs (parse rest))
          have hg' := findPair_replay hg (flatSegs (parse rest))
          rw [parse_marker hf' hg' hk, hT]
          rfl
        · have hps := parse_var hf hg hk
          rw [hps]
          rw [show Segment.var (trimL inner) :: parse rest
            = [Segment.var (trimL inner)] ++ parse rest from rfl]
          rw [flatSegs_append, flatSegs_append]
          simp only [flatSegs, List.append_nil]
          have hshape : flatSegs (if pre.isEmpty then [] else [Segment.lit pre])
              ++ ('{' :: '{' :: ' ' :: (trimL inner ++ ' ' :: '}' :: '}' :: [])
                ++ flatSegs (parse rest))
              = pre ++ '{' :: '{' :: (' ' :: (trimL inner
                  ++ ' ' :: '}' :: '}' :: flatSegs (parse rest))) := by
            cases pre <;> simp [flatSegs]
          rw [hshape]
          have hf' := findPair_replay hf
            (' ' :: (trimL inner ++ ' ' :: '}' :: '}' :: flatSegs (parse rest)))
          have hkey_np : findPair '}' (trimL inner) = none :=
            noPair_within (trimL_within inner) (findPair_found_props hg).1
          have hl_np : findPair '}' (' ' :: (trimL inner ++ [' '])) = none :=
            noPair_cons (by decide) (noPair_snoc (by decide) hkey_np)
          have hlast : (' ' :: (trimL inner ++ [' '])).getLast? ≠ some '}' := by
            rw [show ' ' :: (trimL inner ++ [' ']) = (' ' :: trimL inner) ++ [' ']
              from rfl]
            rw [List.getLast?_concat]
            decide
          have hg' := findPair_mk hl_np hlast (flatSegs (parse rest))
          rw [show (' ' :: (trimL inner ++ [' '])) ++ '}' :: '}' :: flatSegs (parse rest)
              = ' ' :: (trimL inner ++ ' ' :: '}' :: '}' :: flatSegs (parse rest)) by
            simp] at hg'
          have hpad : trimL (' ' :: (trimL inner ++ [' '])) = trimL inner :=
            trimL_pad hk (fun a ha => trimL_head_not_ws ha)
              (fun a ha => trimL_getLast_not_ws ha)
          have hpv := parse_var hf' hg' (by rw [hpad]; exact hk)
          rw [hpad] at hpv
          rw [hpv, hT]
          rfl

/-- C4 counterexample: for the input `{{key}}` the concatenation of the
parsed segments, each variable in its `{{ name }}` form, is `{{ key }}`
and differs from the input. -/
theorem parse_reconstruct_not_exact :
    flatSegs (parse "\x7b\x7bkey\x7d\x7d".data) ≠ "\x7b\x7bkey\x7d\x7d".data := by decide

/-- C4 (amended): concatenating the segments produced by `parse` — each
literal verbatim and each variable in its `{{ name }}` form — reconstructs
the input only up to normalising the whitespace inside variable markers;
re-parsing the reconstruction always yields exactly the same segment
sequence (literal-vs-marker classification is idempotent). -/
theorem parse_reconstruct_idempotent (s : List Char) :
    parse (flatSegs (parse s)) = parse s :=
  parse_flat_aux s.length s (Nat.le_refl _)

end Oxidize
